import Mathlib

/-!
Verification of `slither/tools/properties/properties/auto.py`: the trace
analyzer (`detect_token_props`), the property synthesizer (`AUTO_token_max`)
and the address checksum encoder (`checksum_encode`), shallowly embedded in
Lean.  Python strings are modelled as `String` (operating on `String.data`,
which matches Python's per-code-point indexing/slicing), Python `int`s as
`Nat` (all values here are non-negative), and Python exceptions as
`Except.error` with the corresponding interpreter message.
-/

namespace SlitherAuto

/-- One entry of the recorded transaction trace (`txs` in `auto.py`): a JSON
object whose `event` field is either `ContractCreated` (with a `from` field)
or `FunctionCall` (with `from`, `to`, `data`, `value`, `gas_used`,
`gas_price`, all hex strings). -/
inductive Event where
  | contractCreated (srcAddr : String)
  | functionCall (srcAddr dstAddr callData callValue gasUsed gasPrice : String)
deriving DecidableEq

/-- Whether an event is a `ContractCreated` entry. -/
def isCreate : Event → Bool
  | .contractCreated _ => true
  | .functionCall _ _ _ _ _ _ => false

/-- Value of a single hexadecimal digit, as accepted by Python `int(_, 16)`
on a one-character string: `0`-`9`, `a`-`f`, `A`-`F`. -/
def hexDigitVal (c : Char) : Option Nat :=
  if '0' ≤ c ∧ c ≤ '9' then some (c.toNat - '0'.toNat)
  else if 'a' ≤ c ∧ c ≤ 'f' then some (c.toNat - 'a'.toNat + 10)
  else if 'A' ≤ c ∧ c ≤ 'F' then some (c.toNat - 'A'.toNat + 10)
  else none

/-- Accumulating hex parser over a run of digits; fails on the first
non-hex character. -/
def parseHexAux : List Char → Nat → Option Nat
  | [], acc => some acc
  | c :: cs, acc =>
    match hexDigitVal c with
    | some d => parseHexAux cs (acc * 16 + d)
    | none => none

/-- Python `int(s, 16)` as exercised by `auto.py`: an optional `0x`/`0X`
prefix followed by a nonempty run of hex digits; anything else raises
`ValueError`, modelled as `none`.  (The whitespace, sign and underscore
forms Python also tolerates never arise from the hex-string inputs
modelled here.) -/
def pyIntHex (s : String) : Option Nat :=
  match s.data with
  | [] => none
  | '0' :: 'x' :: rest => if rest.isEmpty then none else parseHexAux rest 0
  | '0' :: 'X' :: rest => if rest.isEmpty then none else parseHexAux rest 0
  | cs => parseHexAux cs 0

/-- Python `s.replace("0x", "")` on the underlying character list: delete
every non-overlapping occurrence of the two-character substring `0x`,
scanning left to right. -/
def replace0xAux : List Char → List Char
  | [] => []
  | [c] => [c]
  | c :: c' :: rest =>
    if c = '0' ∧ c' = 'x' then replace0xAux rest
    else c :: replace0xAux (c' :: rest)

/-- Python `s.replace("0x", "")`. -/
def replaceAll0x (s : String) : String := ⟨replace0xAux s.data⟩

/-- Python `s.lower()`, restricted to ASCII, which is all the inputs here
use. -/
def pyLower (s : String) : String := ⟨s.data.map Char.toLower⟩

/-- Drop one literal leading `0x`, if present: the "prefix-stripped form"
of the specification. -/
def strip0x (s : String) : String :=
  match s.data with
  | c :: c' :: rest => if c = '0' ∧ c' = 'x' then ⟨rest⟩ else s
  | _ => s

/-- Modelled from the spec: `get_function_id` lives in
`slither.utils.function`, which is not included under `src/`.  Per the
specification, a selector is "the first 4 bytes of the hash of a function's
canonical signature", computed by "the standard function-selector
derivation (hash of the canonical signature string, first 4 bytes,
big-endian)"; for the three canonical token signatures the analyzer uses,
these are the standard ERC-20 selector values. -/
def get_function_id (sig : String) : Nat :=
  if sig = "transfer(address,uint256)" then 0xa9059cbb
  else if sig = "balanceOf(address)" then 0x70a08231
  else if sig = "approve(address,uint256)" then 0x095ea7b3
  else 0

/-- The `erc20_sigs` list built at the top of `detect_token_props`. -/
def erc20_sigs : List Nat :=
  [get_function_id "transfer(address,uint256)",
   get_function_id "balanceOf(address)",
   get_function_id "approve(address,uint256)"]

/-- Python `set.add`, on a duplicate-free list model of a set. -/
def setAdd (l : List String) (a : String) : List String :=
  if a ∈ l then l else l ++ [a]

/-- Python ordered-`dict` assignment `d[k] = v`: update in place when the key
is present (keeping its position), append otherwise. -/
def odInsert (k : String) (v : Nat) : List (String × Nat) → List (String × Nat)
  | [] => [(k, v)]
  | (k', v') :: rest => if k' = k then (k', v) :: rest else (k', v') :: odInsert k v rest

/-- The mutable locals of the scan loop in `detect_token_props`. -/
structure ScanState where
  accounts : List String
  last_create : Option Nat
  tokens : List (String × Nat)
deriving DecidableEq

/-- The `for i, tx in enumerate(txs)` loop of `detect_token_props`.  `i` is
the index of the first event of the remaining list.  `tx["data"][:10]` is
Python code-point slicing, i.e. `List.take 10` on the character list;
`int(selector, 16)` raising `ValueError` aborts the whole call. -/
def detectLoop (sigs : List Nat) (maxBalance : Nat) :
    List Event → Nat → ScanState → Except String ScanState
  | [], _, st => .ok st
  | .contractCreated f :: rest, i, st =>
      detectLoop sigs maxBalance rest (i + 1)
        { st with accounts := setAdd st.accounts f, last_create := some i }
  | .functionCall f toAddr data _ _ _ :: rest, i, st =>
      match pyIntHex ⟨data.data.take 10⟩ with
      | none => .error "ValueError: invalid literal for int() with base 16"
      | some v =>
          detectLoop sigs maxBalance rest (i + 1)
            { st with accounts := setAdd st.accounts f,
                      tokens := if v ∈ sigs then odInsert toAddr maxBalance st.tokens
                                else st.tokens }

/-- `detect_token_props` from `auto.py`.  The unused `slither` argument and
the informational `print`s are omitted (`attacker_address` is likewise never
read by the original body).  Python exceptions are modelled as
`Except.error`: `int(selector, 16)` raising `ValueError` on malformed call
data, and `txs[:last_create+1]` raising `TypeError` when no
`ContractCreated` event was seen and `last_create` is still `None`. -/
def detect_token_props (txs : List Event) (attacker_address : String)
    (max_balance : Option Nat) :
    Except String (List String × List (String × Nat) × List Event × List Event) :=
  let _ := attacker_address
  let mb := max_balance.getD 0
  match detectLoop erc20_sigs mb txs 0 ⟨[], none, []⟩ with
  | .error e => .error e
  | .ok st =>
    match st.last_create with
    | none => .error "TypeError: unsupported operand type(s) for +: NoneType and int"
    | some lc => .ok (st.accounts, st.tokens, txs.take (lc + 1), txs.drop (lc + 1))

/-- Modelled from the spec: `PropertyType` comes from
`slither.tools.properties.properties.properties`, which is not included
under `src/`.  The spec's PropertyRecord `kind` distinguishes a
"code quality" class from a "correctness" class. -/
inductive PropertyType where
  | CODE_QUALITY
  | CORRECTNESS
deriving DecidableEq

/-- Modelled from the spec: `PropertyReturn` (the record's
`expectedOutcome`), whether a passing fuzzing run should find the assertion
succeeds or fails. -/
inductive PropertyReturn where
  | SUCCESS
  | FAIL
deriving DecidableEq

/-- Modelled from the spec: `PropertyCaller`, the enumerated restriction on
which synthetic account may invoke the check (ANY / OWNER / USER /
ATTACKER). -/
inductive PropertyCaller where
  | ANY
  | OWNER
  | USER
  | ATTACKER
deriving DecidableEq

/-- Modelled from the spec: the `Property` namedtuple of
`slither.tools.properties.properties.properties` (not included under
`src/`), with the fields the spec lists for a PropertyRecord: name /
description / content / kind / expectedOutcome / isUnitTest /
isFuzzProperty / caller. -/
structure Property where
  name : String
  description : String
  content : String
  type : PropertyType
  return_type : PropertyReturn
  is_unit_test : Bool
  is_property_test : Bool
  caller : PropertyCaller
deriving DecidableEq

/-- `AUTO_token_max` from `auto.py`.  Python's `int(token, 16)` and
`int(attacker_address, 16)` raising `ValueError` on a malformed address is
modelled as `Except.error`; `str(_)` on the resulting non-negative ints is
`Nat.repr`. -/
def AUTO_token_max (attacker_address : String) (tokens : List (String × Nat)) :
    Except String (List Property) :=
  match tokens with
  | [] => .ok []
  | (token, max_balance) :: rest =>
    match pyIntHex token with
    | none => .error "ValueError: invalid literal for int() with base 16"
    | some ti =>
      match pyIntHex attacker_address with
      | none => .error "ValueError: invalid literal for int() with base 16"
      | some ai =>
        match AUTO_token_max attacker_address rest with
        | .error e => .error e
        | .ok ps =>
          .ok ({ name := "crytic_attacker_cannot_get_tokens_more_than_" ++ Nat.repr max_balance
                           ++ "_from_" ++ replaceAll0x token ++ "()",
                 description := "The attacker address should not receive tokens.",
                 content := "\n\t\treturn HasBalance(address(" ++ Nat.repr ti
                              ++ ")).balanceOf(address(" ++ Nat.repr ai ++ ")) <= "
                              ++ Nat.repr max_balance ++ " ;",
                 type := .CODE_QUALITY,
                 return_type := .SUCCESS,
                 is_unit_test := false,
                 is_property_test := true,
                 caller := .ANY } :: ps)

/-- The character loop of `checksum_encode`: `hashed` is the character list
of the digest's hexdigest, `i` the index of the current character.  Digits
pass through; letters `a`-`f` consult the digest nibble at the same index;
any other character hits the Python `assert False`.  A digest too short to
index (`IndexError`) or holding a non-hex character (`ValueError` from
`int(hashed_address[i], 16)`) also aborts. -/
def checksumAux (hashed : List Char) : List Char → Nat → Except String (List Char)
  | [], _ => .ok []
  | c :: rest, i =>
    if c ∈ ("0123456789".data) then
      match checksumAux hashed rest (i + 1) with
      | .ok cs => .ok (c :: cs)
      | .error e => .error e
    else if c ∈ ("abcdef".data) then
      match hashed.get? i with
      | none => .error "IndexError: string index out of range"
      | some hc =>
        match hexDigitVal hc with
        | none => .error "ValueError: invalid literal for int() with base 16"
        | some v =>
          match checksumAux hashed rest (i + 1) with
          | .ok cs => .ok ((if 7 < v then c.toUpper else c) :: cs)
          | .error e => .error e
    else .error "AssertionError"

/-- `checksum_encode` from `auto.py`, with the digest abstracted: `hash s`
stands for `hashlib.sha3_512(s.encode("utf-8")).hexdigest()` (hashlib is a
Python standard-library collaborator, not part of this repository; applying
`hash` to the stripped string models hashing its UTF-8 bytes).  The
`assert False` on a non-hex character and the errors a short or non-hex
digest would raise are modelled as `Except.error`. -/
def checksum_encode (hash : String → String) (hex_addr : String) : Except String String :=
  let stripped := replaceAll0x (pyLower hex_addr)
  let hashed := (hash stripped).data
  match checksumAux hashed stripped.data 0 with
  | .ok cs => .ok ("0x" ++ String.mk cs)
  | .error e => .error e

/-! Specification-side definitions, written from the spec's words, to be
compared with the embedded code. -/

/-- Index of the last `ContractCreated` event of a trace, if any. -/
def lastCreateSpec : List Event → Option Nat
  | [] => none
  | e :: rest =>
    match lastCreateSpec rest with
    | some j => some (j + 1)
    | none => if isCreate e then some 0 else none

/-- First-seen deduplication: append each element the first time it occurs,
ignore later occurrences. -/
def firstSeenAux : List String → List String → List String
  | seen, [] => seen
  | seen, t :: rest => firstSeenAux (if t ∈ seen then seen else seen ++ [t]) rest

/-- The distinct elements of a list, in first-seen order. -/
def firstSeenKeys (l : List String) : List String := firstSeenAux [] l

/-- Folding a run of token addresses into an ordered map, every one with the
same ceiling (the shape of the scan loop's `tokens[addr] = max_balance`). -/
def insertAllConst (mb : Nat) : List String → List (String × Nat) → List (String × Nat)
  | [], acc => acc
  | t :: rest, acc => insertAllConst mb rest (odInsert t mb acc)

/-- The `to` addresses of the function calls the code's own condition
accepts (`int(tx["data"][:10], 16) in erc20_sigs`), in trace order. -/
def matchingTos (sigs : List Nat) (l : List Event) : List String :=
  l.filterMap fun e =>
    match e with
    | .contractCreated _ => none
    | .functionCall _ toAddr data _ _ _ =>
      match pyIntHex ⟨data.data.take 10⟩ with
      | some v => if v ∈ sigs then some toAddr else none
      | none => none

/-- A call-data blob that is a `0x`-prefixed hex string long enough to hold
a full 4-byte selector. -/
def wellFormedData (data : String) : Bool :=
  match data.data with
  | c :: c' :: rest =>
      c == '0' && c' == 'x' && decide (8 ≤ rest.length)
        && (rest.take 8).all fun ch => (hexDigitVal ch).isSome
  | _ => false

/-- The numeric value of the leading 4-byte selector of a call-data blob
(the spec's "extract its leading 4 bytes"), when the blob is long enough. -/
def leadingSelectorVal (data : String) : Option Nat :=
  match data.data with
  | c :: c' :: rest =>
      if c = '0' ∧ c' = 'x' ∧ 8 ≤ rest.length then parseHexAux (rest.take 8) 0 else none
  | _ => none

/-- The `to` addresses of the function calls whose leading 4-byte selector
matches a recognized signature, in trace order (the spec's wording of the
matching condition). -/
def specMatchingTos (l : List Event) : List String :=
  l.filterMap fun e =>
    match e with
    | .contractCreated _ => none
    | .functionCall _ toAddr data _ _ _ =>
      match leadingSelectorVal data with
      | some v => if v ∈ erc20_sigs then some toAddr else none
      | none => none

/-- Events whose call data (for function calls) is well-formed. -/
def eventDataOk : Event → Bool
  | .contractCreated _ => true
  | .functionCall _ _ data _ _ _ => wellFormedData data

/-- The digest nibble at character index `i`: the hex value of the `i`-th
character of the hexdigest. -/
def nibbleAt (hashed : List Char) (i : Nat) : Option Nat :=
  match hashed.get? i with
  | some c => hexDigitVal c
  | none => none

/-- The spec's per-character checksumming rule: digits unchanged; a letter
`a`-`f` upper-cased exactly when the digest nibble at the same character
index exceeds 7, kept lowercase otherwise. -/
def specChecksumChar (hashed : List Char) (i : Nat) (c : Char) : Char :=
  if c ∈ ("abcdef".data) then
    match nibbleAt hashed i with
    | some v => if 7 < v then c.toUpper else c
    | none => c
  else c

/-- The spec's checksumming rule applied along a string, tracking the
character index. -/
def specChecksumMap (hashed : List Char) : List Char → Nat → List Char
  | [], _ => []
  | c :: rest, i => specChecksumChar hashed i c :: specChecksumMap hashed rest (i + 1)

/-- Canonical address form of the spec's data model: a literal `0x` prefix
followed by a nonempty string of lowercase hex characters. -/
def isCanonicalAddress (s : String) : Bool :=
  match s.data with
  | c :: c' :: rest =>
      c == '0' && c' == 'x' && !rest.isEmpty
        && rest.all fun ch => ch ∈ ("0123456789abcdef".data)
  | _ => false

/-- The name `AUTO_token_max` gives the record of one `(token, ceiling)`
entry. -/
def autoPropName (tk : String × Nat) : String :=
  "crytic_attacker_cannot_get_tokens_more_than_" ++ Nat.repr tk.2
    ++ "_from_" ++ replaceAll0x tk.1 ++ "()"

/-- The spec's description of the record synthesized for one
`(token, ceiling)` entry: a deterministic name, a fixed description, a
content asserting that the token's balanceOf applied to the attacker
address is bounded by the ceiling, kind = code quality, expected outcome =
success, not a unit test, a fuzz property, callable by ANY. -/
def autoPropSpec (a : String) (tk : String × Nat) (p : Property) : Prop :=
  ∃ ti ai, pyIntHex tk.1 = some ti ∧ pyIntHex a = some ai ∧
    p.name = autoPropName tk ∧
    p.description = "The attacker address should not receive tokens." ∧
    p.content = "\n\t\treturn HasBalance(address(" ++ Nat.repr ti
      ++ ")).balanceOf(address(" ++ Nat.repr ai ++ ")) <= " ++ Nat.repr tk.2 ++ " ;" ∧
    p.type = PropertyType.CODE_QUALITY ∧ p.return_type = PropertyReturn.SUCCESS ∧
    p.is_unit_test = false ∧ p.is_property_test = true ∧
    p.caller = PropertyCaller.ANY

/-! Concrete traces and results used by the witness theorems. -/

/-- A trace of one creation followed by one recognized `balanceOf` call. -/
def txsC1 : List Event :=
  [Event.contractCreated "0xaa",
   Event.functionCall "0xbb" "0xcc" "0x70a08231" "0x0" "0x1" "0x1"]

/-- A trace with two distinct `balanceOf` targets and a repeated target. -/
def txsC2 : List Event :=
  [Event.contractCreated "0xaa",
   Event.functionCall "0xb1" "0xc1" "0x70a08231" "0x0" "0x1" "0x1",
   Event.functionCall "0xb2" "0xc2" "0x70a08231" "0x0" "0x1" "0x1",
   Event.functionCall "0xb3" "0xc1" "0xa9059cbb" "0x0" "0x1" "0x1"]

/-- A trace whose function call carries the malformed data blob `0x`. -/
def txs8a : List Event :=
  [Event.contractCreated "0xaa",
   Event.functionCall "0xbb" "0xcc" "0x" "0x0" "0x1" "0x1"]

/-- A trace whose function call carries the 9-character (hence too-short)
data blob `0x95ea7b3`, numerically equal to the `approve` selector. -/
def txs8b : List Event :=
  [Event.contractCreated "0xaa",
   Event.functionCall "0xbb" "0xcc" "0x95ea7b3" "0x0" "0x1" "0x1"]

/-- A trace with no `ContractCreated` event. -/
def txs9 : List Event :=
  [Event.functionCall "0xbb" "0xcc" "0x70a08231" "0x0" "0x1" "0x1"]

/-- The records `AUTO_token_max` builds for attacker `0xbb` and the
single-token map `[("0xcc", 0)]`. -/
def propsC3 : List Property :=
  [{ name := "crytic_attacker_cannot_get_tokens_more_than_0_from_cc()",
     description := "The attacker address should not receive tokens.",
     content := "\n\t\treturn HasBalance(address(204)).balanceOf(address(187)) <= 0 ;",
     type := .CODE_QUALITY,
     return_type := .SUCCESS,
     is_unit_test := false,
     is_property_test := true,
     caller := .ANY }]

/-- The records `AUTO_token_max` builds for attacker `0xbb` and the
two-token map `[("0xc1", 0), ("0xc2", 0)]` (equal ceilings). -/
def propsC4 : List Property :=
  [{ name := "crytic_attacker_cannot_get_tokens_more_than_0_from_c1()",
     description := "The attacker address should not receive tokens.",
     content := "\n\t\treturn HasBalance(address(193)).balanceOf(address(187)) <= 0 ;",
     type := .CODE_QUALITY,
     return_type := .SUCCESS,
     is_unit_test := false,
     is_property_test := true,
     caller := .ANY },
   { name := "crytic_attacker_cannot_get_tokens_more_than_0_from_c2()",
     description := "The attacker address should not receive tokens.",
     content := "\n\t\treturn HasBalance(address(194)).balanceOf(address(187)) <= 0 ;",
     type := .CODE_QUALITY,
     return_type := .SUCCESS,
     is_unit_test := false,
     is_property_test := true,
     caller := .ANY }]

/-- A constant two-character digest used to exercise the checksum encoder in
the witnesses. -/
def hashW : String → String := fun _ => "80"

/-! Basic lemmas about strings, decimal digits and the `0x`-stripping
helpers. -/

theorem str_ext {s t : String} (h : s.data = t.data) : s = t := by
  cases s; cases t; exact congrArg String.mk h

theorem str_data_append (s t : String) : (s ++ t).data = s.data ++ t.data := rfl

theorem str_eta (s : String) : (⟨s.data⟩ : String) = s := by
  cases s; rfl

theorem digitChar_mem_digits : ∀ m, m < 10 → Nat.digitChar m ∈ ("0123456789".data) := by
  decide

theorem toDigitsCore_mem :
    ∀ (fuel n : Nat) (acc : List Char), (∀ c ∈ acc, c ∈ ("0123456789".data)) →
      ∀ c ∈ Nat.toDigitsCore 10 fuel n acc, c ∈ ("0123456789".data) := by
  intro fuel
  induction fuel with
  | zero => intro n acc hacc c hc; exact hacc c hc
  | succ f ih =>
    intro n acc hacc c hc
    have hd : Nat.digitChar (n % 10) ∈ ("0123456789".data) :=
      digitChar_mem_digits _ (Nat.mod_lt _ (by omega))
    simp only [Nat.toDigitsCore] at hc
    split at hc
    · rcases List.mem_cons.mp hc with h | h
      · exact h ▸ hd
      · exact hacc c h
    · refine ih _ _ ?_ c hc
      intro c' hc'
      rcases List.mem_cons.mp hc' with h | h
      · exact h ▸ hd
      · exact hacc c' h

theorem repr_mem_digits (n : Nat) : ∀ c ∈ (Nat.repr n).data, c ∈ ("0123456789".data) := by
  intro c hc
  have : (Nat.repr n).data = Nat.toDigitsCore 10 (n + 1) n [] := rfl
  rw [this] at hc
  exact toDigitsCore_mem _ _ _ (by simp) c hc

theorem repr_no_underscore (n : Nat) : ('_' : Char) ∉ (Nat.repr n).data := by
  intro h
  have := repr_mem_digits n _ h
  revert this
  decide

theorem repr_no_newline (n : Nat) : ('\n' : Char) ∉ (Nat.repr n).data := by
  intro h
  have := repr_mem_digits n _ h
  revert this
  decide

theorem marker_split (m : Char) :
    ∀ (a b x y : List Char), m ∉ a → m ∉ b → a ++ m :: x = b ++ m :: y →
      a = b ∧ x = y := by
  intro a
  induction a with
  | nil =>
    intro b x y _ hb h
    cases b with
    | nil => simpa using h
    | cons c b' =>
      exfalso
      simp only [List.nil_append, List.cons_append, List.cons.injEq] at h
      exact hb (h.1 ▸ List.mem_cons_self c b')
  | cons c a' ih =>
    intro b x y ha hb h
    cases b with
    | nil =>
      exfalso
      simp only [List.nil_append, List.cons_append, List.cons.injEq] at h
      exact ha (h.1 ▸ List.mem_cons_self c a')
    | cons c' b' =>
      simp only [List.cons_append, List.cons.injEq] at h
      have ha' : m ∉ a' := fun hm => ha (List.mem_cons_of_mem _ hm)
      have hb' : m ∉ b' := fun hm => hb (List.mem_cons_of_mem _ hm)
      have := ih b' x y ha' hb' h.2
      exact ⟨by rw [h.1, this.1], this.2⟩

theorem replace0xAux_no_x :
    ∀ l : List Char, (∀ c ∈ l, ¬ c = 'x') → replace0xAux l = l := by
  intro l
  induction l using replace0xAux.induct with
  | case1 => simp [replace0xAux]
  | case2 c => simp [replace0xAux]
  | case3 c c' rest hcc ih =>
    intro h
    exfalso
    exact h c' (by simp) hcc.2
  | case4 c c' rest hcc ih =>
    intro h
    have := ih fun d hd => h d (List.mem_cons_of_mem _ hd)
    simp only [replace0xAux, if_neg hcc]
    rw [this]

theorem hex16_no_x : ∀ c ∈ ("0123456789abcdef".data), ¬ c = 'x' := by decide

theorem replace0xAux_cons0x (l : List Char) :
    replace0xAux ('0' :: 'x' :: l) = replace0xAux l := by
  simp [replace0xAux]

theorem strip_eq_replace (s : String)
    (h : ∀ c ∈ (strip0x s).data, c ∈ ("0123456789abcdef".data)) :
    replaceAll0x s = strip0x s := by
  cases s with
  | mk l =>
    cases l with
    | nil => rfl
    | cons c l' =>
      cases l' with
      | nil => rfl
      | cons c' l'' =>
        by_cases hcc : c = '0' ∧ c' = 'x'
        · obtain ⟨h0, hx⟩ := hcc
          subst h0; subst hx
          have hstrip : strip0x ⟨'0' :: 'x' :: l''⟩ = ⟨l''⟩ := by
            simp [strip0x]
          rw [hstrip] at h ⊢
          have hnx : ∀ c ∈ l'', ¬ c = 'x' := fun c hc => hex16_no_x c (h c hc)
          simp only [replaceAll0x]
          rw [replace0xAux_cons0x, replace0xAux_no_x _ hnx]
        · have hstrip : strip0x ⟨c :: c' :: l''⟩ = ⟨c :: c' :: l''⟩ := by
            simp [strip0x, if_neg hcc]
          rw [hstrip] at h ⊢
          have hnx : ∀ d ∈ (c :: c' :: l''), ¬ d = 'x' := fun d hd => hex16_no_x d (h d hd)
          simp only [replaceAll0x]
          rw [replace0xAux_no_x _ hnx]

theorem canonical_strip (t : String) (h : isCanonicalAddress t = true) :
    t.data = '0' :: 'x' :: (replaceAll0x t).data ∧
      ∀ c ∈ (replaceAll0x t).data, c ∈ ("0123456789abcdef".data) := by
  cases t with
  | mk l =>
    cases l with
    | nil => simp [isCanonicalAddress] at h
    | cons c l' =>
      cases l' with
      | nil => simp [isCanonicalAddress] at h
      | cons c' l'' =>
        simp only [isCanonicalAddress, Bool.and_eq_true, beq_iff_eq, List.all_eq_true] at h
        obtain ⟨⟨⟨h0, hx⟩, _⟩, hhex⟩ := h
        subst h0; subst hx
        have hnx : ∀ c ∈ l'', ¬ c = 'x' := fun c hc => hex16_no_x c (by simpa using hhex c hc)
        have hrw : replaceAll0x ⟨'0' :: 'x' :: l''⟩ = ⟨l''⟩ := by
          simp only [replaceAll0x]
          rw [replace0xAux_cons0x, replace0xAux_no_x _ hnx]
        rw [hrw]
        exact ⟨rfl, fun c hc => by simpa using hhex c hc⟩

/-! Lemmas about the scan loop of `detect_token_props`. -/

theorem lastCreateSpec_eq_none (l : List Event) (h : ∀ e ∈ l, isCreate e = false) :
    lastCreateSpec l = none := by
  induction l with
  | nil => rfl
  | cons e rest ih =>
    have hrest := ih fun e' he' => h e' (List.mem_cons_of_mem _ he')
    simp [lastCreateSpec, hrest, h e (List.mem_cons_self e rest)]

theorem lastCreateSpec_none_forall (l : List Event) (h : lastCreateSpec l = none) :
    ∀ e ∈ l, isCreate e = false := by
  induction l with
  | nil => simp
  | cons e rest ih =>
    simp only [lastCreateSpec] at h
    cases hr : lastCreateSpec rest with
    | some j => rw [hr] at h; simp at h
    | none =>
      rw [hr] at h
      intro e' he'
      rcases List.mem_cons.mp he' with he' | he'
      · subst he'
        by_cases hc : isCreate e' = true
        · rw [if_pos hc] at h; simp at h
        · simpa using hc
      · exact ih hr e' he'

theorem lastCreateSpec_get (l : List Event) (k : Nat) (h : lastCreateSpec l = some k) :
    ∃ e, l.get? k = some e ∧ isCreate e = true := by
  induction l generalizing k with
  | nil => simp [lastCreateSpec] at h
  | cons e rest ih =>
    simp only [lastCreateSpec] at h
    cases hr : lastCreateSpec rest with
    | some j =>
      rw [hr] at h
      simp only [Option.some.injEq] at h
      subst h
      obtain ⟨e', hg, hc⟩ := ih j hr
      exact ⟨e', by simpa using hg, hc⟩
    | none =>
      rw [hr] at h
      by_cases hc : isCreate e = true
      · rw [if_pos hc] at h
        simp only [Option.some.injEq] at h
        subst h
        exact ⟨e, rfl, hc⟩
      · rw [if_neg hc] at h; cases h

theorem lastCreateSpec_after (l : List Event) (k : Nat) (h : lastCreateSpec l = some k) :
    ∀ j e, k < j → l.get? j = some e → isCreate e = false := by
  induction l generalizing k with
  | nil => simp [lastCreateSpec] at h
  | cons e rest ih =>
    simp only [lastCreateSpec] at h
    cases hr : lastCreateSpec rest with
    | some j0 =>
      rw [hr] at h
      simp only [Option.some.injEq] at h
      subst h
      intro j e' hj hg
      cases j with
      | zero => omega
      | succ j' =>
        simp only [List.get?_cons_succ] at hg
        exact ih j0 hr j' e' (by omega) hg
    | none =>
      rw [hr] at h
      by_cases hc : isCreate e = true
      · rw [if_pos hc] at h
        simp only [Option.some.injEq] at h
        subst h
        intro j e' hj hg
        cases j with
        | zero => omega
        | succ j' =>
          simp only [List.get?_cons_succ] at hg
          exact lastCreateSpec_none_forall rest hr e' (List.get?_mem hg)
      · rw [if_neg hc] at h; cases h

theorem detectLoop_last_create (sigs : List Nat) (mb : Nat) :
    ∀ (l : List Event) (i : Nat) (st st' : ScanState),
      detectLoop sigs mb l i st = .ok st' →
      st'.last_create = match lastCreateSpec l with
        | some j => some (i + j)
        | none => st.last_create := by
  intro l
  induction l with
  | nil =>
    intro i st st' h
    simp only [detectLoop, Except.ok.injEq] at h
    subst h
    rfl
  | cons e rest ih =>
    intro i st st' h
    cases e with
    | contractCreated f =>
      simp only [detectLoop] at h
      have hres := ih (i + 1) _ st' h
      simp only [lastCreateSpec]
      cases hr : lastCreateSpec rest with
      | some j =>
        rw [hr] at hres
        simp only at hres
        rw [hres]
        congr 1
        omega
      | none =>
        rw [hr] at hres
        simp only [isCreate, if_true]
        simpa using hres
    | functionCall f toAddr data v g1 g2 =>
      simp only [detectLoop] at h
      cases hv : pyIntHex ⟨data.data.take 10⟩ with
      | none => rw [hv] at h; cases h
      | some w =>
        rw [hv] at h
        have hres := ih (i + 1) _ st' h
        simp only [lastCreateSpec, isCreate]
        cases hr : lastCreateSpec rest with
        | some j =>
          rw [hr] at hres
          simp only at hres
          rw [hres]
          congr 1
          omega
        | none =>
          rw [hr] at hres
          simpa using hres

theorem detectLoop_tokens (sigs : List Nat) (mb : Nat) :
    ∀ (l : List Event) (i : Nat) (st st' : ScanState),
      detectLoop sigs mb l i st = .ok st' →
      st'.tokens = insertAllConst mb (matchingTos sigs l) st.tokens := by
  intro l
  induction l with
  | nil =>
    intro i st st' h
    simp only [detectLoop, Except.ok.injEq] at h
    subst h
    rfl
  | cons e rest ih =>
    intro i st st' h
    cases e with
    | contractCreated f =>
      simp only [detectLoop] at h
      have hres := ih (i + 1) _ st' h
      simpa [matchingTos, List.filterMap_cons] using hres
    | functionCall f toAddr data v g1 g2 =>
      simp only [detectLoop] at h
      cases hv : pyIntHex ⟨data.data.take 10⟩ with
      | none => rw [hv] at h; cases h
      | some w =>
        rw [hv] at h
        have hres := ih (i + 1) _ st' h
        by_cases hw : w ∈ sigs
        · rw [if_pos hw] at hres
          simp only [matchingTos, List.filterMap_cons, hv, if_pos hw]
          rw [hres]
          rfl
        · rw [if_neg hw] at hres
          simp only [matchingTos, List.filterMap_cons, hv, if_neg hw]
          exact hres

theorem odInsert_map_const (mb : Nat) (t : String) :
    ∀ keys : List String,
      odInsert t mb (keys.map fun k => (k, mb)) =
        (if t ∈ keys then keys else keys ++ [t]).map fun k => (k, mb) := by
  intro keys
  induction keys with
  | nil => simp [odInsert]
  | cons k ks ih =>
    by_cases hk : k = t
    · subst hk
      simp [odInsert]
    · simp only [List.map_cons, odInsert, if_neg hk, ih]
      by_cases ht : t ∈ ks
      · rw [if_pos ht, if_pos (List.mem_cons_of_mem _ ht)]
        simp
      · rw [if_neg ht, if_neg (by simp [hk, ht, Ne.symm])]
        simp

theorem insertAllConst_map_const (mb : Nat) :
    ∀ (tos : List String) (keys : List String),
      insertAllConst mb tos (keys.map fun k => (k, mb)) =
        (firstSeenAux keys tos).map fun k => (k, mb) := by
  intro tos
  induction tos with
  | nil => intro keys; rfl
  | cons t rest ih =>
    intro keys
    simp only [insertAllConst, firstSeenAux, odInsert_map_const]
    exact ih (if t ∈ keys then keys else keys ++ [t])

theorem firstSeenAux_nodup :
    ∀ (l : List String) (seen : List String), seen.Nodup → (firstSeenAux seen l).Nodup := by
  intro l
  induction l with
  | nil => intro seen h; exact h
  | cons t rest ih =>
    intro seen h
    simp only [firstSeenAux]
    by_cases ht : t ∈ seen
    · rw [if_pos ht]; exact ih seen h
    · rw [if_neg ht]
      refine ih _ ?_
      simp [List.nodup_append, h, ht]

theorem firstSeenAux_mem :
    ∀ (l : List String) (seen : List String) (a : String),
      a ∈ firstSeenAux seen l ↔ a ∈ seen ∨ a ∈ l := by
  intro l
  induction l with
  | nil => intro seen a; simp [firstSeenAux]
  | cons t rest ih =>
    intro seen a
    simp only [firstSeenAux]
    by_cases ht : t ∈ seen
    · rw [if_pos ht, ih]
      constructor
      · rintro (h | h)
        · exact Or.inl h
        · exact Or.inr (List.mem_cons_of_mem _ h)
      · rintro (h | h)
        · exact Or.inl h
        · rcases List.mem_cons.mp h with h | h
          · exact Or.inl (h ▸ ht)
          · exact Or.inr h
    · rw [if_neg ht, ih]
      simp only [List.mem_append, List.mem_singleton, List.mem_cons]
      tauto

theorem wf_match_eq (d : String) (hw : wellFormedData d = true) :
    pyIntHex ⟨d.data.take 10⟩ = leadingSelectorVal d := by
  cases d with
  | mk l =>
    cases l with
    | nil => simp [wellFormedData] at hw
    | cons c l' =>
      cases l' with
      | nil => simp [wellFormedData] at hw
      | cons c' rest =>
        simp only [wellFormedData, Bool.and_eq_true, beq_iff_eq, decide_eq_true_eq] at hw
        obtain ⟨⟨⟨h0, hx⟩, hlen⟩, _⟩ := hw
        subst h0; subst hx
        have htake : ('0' :: 'x' :: rest).take 10 = '0' :: 'x' :: rest.take 8 := by
          simp [List.take_cons]
        have hne : (rest.take 8).isEmpty = false := by
          have : (rest.take 8).length = 8 := by
            simp [List.length_take]
            omega
          cases hres : rest.take 8 with
          | nil => rw [hres] at this; simp at this
          | cons a as => simp
        show pyIntHex ⟨('0' :: 'x' :: rest).take 10⟩ = _
        rw [htake]
        have h1 : pyIntHex ⟨'0' :: 'x' :: rest.take 8⟩ = parseHexAux (rest.take 8) 0 := by
          show (if (rest.take 8).isEmpty then none else parseHexAux (rest.take 8) 0) = _
          rw [hne]
          simp
        rw [h1]
        simp [leadingSelectorVal, hlen]

theorem matching_eq (l : List Event) (h : ∀ e ∈ l, eventDataOk e = true) :
    matchingTos erc20_sigs l = specMatchingTos l := by
  induction l with
  | nil => rfl
  | cons e rest ih =>
    have hrest := ih fun e' he' => h e' (List.mem_cons_of_mem _ he')
    cases e with
    | contractCreated f =>
      simp only [matchingTos, specMatchingTos, List.filterMap_cons] at hrest ⊢
      exact hrest
    | functionCall f toAddr data v g1 g2 =>
      have hd : wellFormedData data = true := by
        have := h _ (List.mem_cons_self _ rest)
        simpa [eventDataOk] using this
      simp only [matchingTos, specMatchingTos, List.filterMap_cons] at hrest ⊢
      rw [← wf_match_eq data hd]
      cases hv : pyIntHex ⟨data.data.take 10⟩ with
      | none => exact hrest
      | some w =>
        dsimp only
        by_cases hw : w ∈ erc20_sigs
        · rw [if_pos hw]
          show toAddr :: matchingTos erc20_sigs rest = toAddr :: specMatchingTos rest
          simp only [matchingTos, specMatchingTos]
          rw [hrest]
        · rw [if_neg hw]
          exact hrest

theorem detect_ok_destruct (txs : List Event) (a : String) (mb : Option Nat)
    (acc : List String) (toks : List (String × Nat)) (init samp : List Event)
    (h : detect_token_props txs a mb = .ok (acc, toks, init, samp)) :
    ∃ st lc, detectLoop erc20_sigs (mb.getD 0) txs 0 ⟨[], none, []⟩ = .ok st ∧
      st.last_create = some lc ∧ acc = st.accounts ∧ toks = st.tokens ∧
      init = txs.take (lc + 1) ∧ samp = txs.drop (lc + 1) := by
  simp only [detect_token_props] at h
  cases hl : detectLoop erc20_sigs (mb.getD 0) txs 0 ⟨[], none, []⟩ with
  | error e => rw [hl] at h; simp at h
  | ok st =>
    rw [hl] at h
    dsimp only at h
    cases hc : st.last_create with
    | none => rw [hc] at h; simp at h
    | some lc =>
      rw [hc] at h
      simp only [Except.ok.injEq, Prod.mk.injEq] at h
      obtain ⟨h1, h2, h3, h4⟩ := h
      exact ⟨st, lc, rfl, hc, h1.symm, h2.symm, h3.symm, h4.symm⟩

/-- C1: for every event trace on which the analysis succeeds (in particular
every trace with at least one `ContractCreated` event and parseable call
data), the trace is split at `lastCreateIndex + 1`: `initTrace` is the
prefix up to and including the last `ContractCreated` event and
`sampleTrace` is the remaining suffix; in particular, for a trace of
exactly one `ContractCreated` event followed by N `FunctionCall` events,
`initTrace` has length 1 and `sampleTrace` has length N. -/
theorem C1_trace_split (txs : List Event) (a : String) (mb : Option Nat)
    (acc : List String) (toks : List (String × Nat)) (init samp : List Event)
    (h : detect_token_props txs a mb = .ok (acc, toks, init, samp)) :
    (∃ k, (∃ e, txs.get? k = some e ∧ isCreate e = true) ∧
        (∀ j e, k < j → txs.get? j = some e → isCreate e = false) ∧
        init = txs.take (k + 1) ∧ samp = txs.drop (k + 1)) ∧
    (∀ e rest, txs = e :: rest → isCreate e = true →
      (∀ e' ∈ rest, isCreate e' = false) →
      init.length = 1 ∧ samp.length = rest.length) := by
  obtain ⟨st, lc, hloop, hlc, -, -, hinit, hsamp⟩ :=
    detect_ok_destruct txs a mb acc toks init samp h
  have hspec := detectLoop_last_create erc20_sigs (mb.getD 0) txs 0 _ st hloop
  have hlast : lastCreateSpec txs = some lc := by
    cases hr : lastCreateSpec txs with
    | some j =>
      rw [hr] at hspec
      rw [hlc] at hspec
      simp only [Option.some.injEq] at hspec
      simp [hspec]
    | none =>
      rw [hr] at hspec
      rw [hlc] at hspec
      simp at hspec
  constructor
  · exact ⟨lc, lastCreateSpec_get txs lc hlast, lastCreateSpec_after txs lc hlast,
      hinit, hsamp⟩
  · intro e rest hcons hce hrest
    have h0 : lastCreateSpec txs = some 0 := by
      subst hcons
      simp [lastCreateSpec, lastCreateSpec_eq_none rest hrest, hce]
    have hlc0 : lc = 0 := by
      rw [hlast] at h0
      simpa using h0
    subst hlc0
    rw [hcons] at hinit hsamp
    constructor
    · rw [hinit]; rfl
    · rw [hsamp]; rfl

/-- C1 witness: the split on the concrete trace of one creation followed by
one function call. -/
theorem C1_trace_split_witness :
    detect_token_props txsC1 "0xbb" none =
      .ok (["0xaa", "0xbb"], [("0xcc", 0)], [Event.contractCreated "0xaa"],
           [Event.functionCall "0xbb" "0xcc" "0x70a08231" "0x0" "0x1" "0x1"]) ∧
    ((∃ k, (∃ e, txsC1.get? k = some e ∧ isCreate e = true) ∧
        (∀ j e, k < j → txsC1.get? j = some e → isCreate e = false) ∧
        [Event.contractCreated "0xaa"] = txsC1.take (k + 1) ∧
        [Event.functionCall "0xbb" "0xcc" "0x70a08231" "0x0" "0x1" "0x1"] = txsC1.drop (k + 1)) ∧
     (∀ e rest, txsC1 = e :: rest → isCreate e = true →
        (∀ e' ∈ rest, isCreate e' = false) →
        ([Event.contractCreated "0xaa"] : List Event).length = 1 ∧
        ([Event.functionCall "0xbb" "0xcc" "0x70a08231" "0x0" "0x1" "0x1"] : List Event).length
          = rest.length)) :=
  ⟨rfl,
   C1_trace_split txsC1 "0xbb" none ["0xaa", "0xbb"] [("0xcc", 0)]
     [Event.contractCreated "0xaa"]
     [Event.functionCall "0xbb" "0xcc" "0x70a08231" "0x0" "0x1" "0x1"] rfl⟩

/-- C2: on a trace whose function calls carry well-formed call data, the
tokens map has exactly one entry per distinct `to` address of a call whose
leading 4-byte selector matches `transfer(address,uint256)`,
`balanceOf(address)` or `approve(address,uint256)`, keyed in first-seen
order, and every entry carries the ceiling in force during the scan
(first-write-wins is observationally the code's re-assignment of the same
constant ceiling). -/
theorem C2_tokens_map (txs : List Event) (a : String) (mb : Option Nat)
    (acc : List String) (toks : List (String × Nat)) (init samp : List Event)
    (hwf : ∀ e ∈ txs, eventDataOk e = true)
    (h : detect_token_props txs a mb = .ok (acc, toks, init, samp)) :
    toks = (firstSeenKeys (specMatchingTos txs)).map (fun t => (t, mb.getD 0)) ∧
    (toks.map Prod.fst).Nodup ∧
    (∀ t, t ∈ toks.map Prod.fst ↔ t ∈ specMatchingTos txs) ∧
    (∀ p ∈ toks, p.2 = mb.getD 0) := by
  obtain ⟨st, lc, hloop, -, -, htoks, -, -⟩ :=
    detect_ok_destruct txs a mb acc toks init samp h
  have ht := detectLoop_tokens erc20_sigs (mb.getD 0) txs 0 _ st hloop
  rw [matching_eq txs hwf] at ht
  have hmap : (⟨[], none, []⟩ : ScanState).tokens
      = ([] : List String).map (fun k => (k, mb.getD 0)) := rfl
  rw [hmap, insertAllConst_map_const] at ht
  have htoks' : toks = (firstSeenKeys (specMatchingTos txs)).map fun t => (t, mb.getD 0) := by
    rw [htoks, ht]; rfl
  have hfst : ((firstSeenKeys (specMatchingTos txs)).map fun t => (t, mb.getD 0)).map Prod.fst
      = firstSeenKeys (specMatchingTos txs) := by
    rw [List.map_map]
    have hcomp : (Prod.fst ∘ fun t : String => (t, mb.getD 0)) = id := rfl
    rw [hcomp, List.map_id]
  refine ⟨htoks', ?_, ?_, ?_⟩
  · rw [htoks', hfst]
    exact firstSeenAux_nodup _ [] List.nodup_nil
  · intro t
    rw [htoks', hfst]
    have := firstSeenAux_mem (specMatchingTos txs) [] t
    simp only [List.not_mem_nil, false_or] at this
    exact this
  · intro p hp
    rw [htoks'] at hp
    simp only [List.mem_map] at hp
    obtain ⟨t, -, hpt⟩ := hp
    rw [← hpt]

/-- C2 witness: the concrete trace with two distinct recognized targets and
a repeated one. -/
theorem C2_tokens_map_witness :
    (∀ e ∈ txsC2, eventDataOk e = true) ∧
    detect_token_props txsC2 "0xbb" none =
      .ok (["0xaa", "0xb1", "0xb2", "0xb3"], [("0xc1", 0), ("0xc2", 0)],
           [Event.contractCreated "0xaa"],
           [Event.functionCall "0xb1" "0xc1" "0x70a08231" "0x0" "0x1" "0x1",
            Event.functionCall "0xb2" "0xc2" "0x70a08231" "0x0" "0x1" "0x1",
            Event.functionCall "0xb3" "0xc1" "0xa9059cbb" "0x0" "0x1" "0x1"]) ∧
    ([("0xc1", 0), ("0xc2", 0)] =
        (firstSeenKeys (specMatchingTos txsC2)).map (fun t => (t, (none : Option Nat).getD 0)) ∧
      (([("0xc1", 0), ("0xc2", 0)] : List (String × Nat)).map Prod.fst).Nodup ∧
      (∀ t, t ∈ ([("0xc1", 0), ("0xc2", 0)] : List (String × Nat)).map Prod.fst ↔
        t ∈ specMatchingTos txsC2) ∧
      (∀ p ∈ ([("0xc1", 0), ("0xc2", 0)] : List (String × Nat)), p.2 = (none : Option Nat).getD 0)) :=
  ⟨by decide, rfl,
   C2_tokens_map txsC2 "0xbb" none ["0xaa", "0xb1", "0xb2", "0xb3"]
     [("0xc1", 0), ("0xc2", 0)] [Event.contractCreated "0xaa"]
     [Event.functionCall "0xb1" "0xc1" "0x70a08231" "0x0" "0x1" "0x1",
      Event.functionCall "0xb2" "0xc2" "0x70a08231" "0x0" "0x1" "0x1",
      Event.functionCall "0xb3" "0xc1" "0xa9059cbb" "0x0" "0x1" "0x1"]
     (by decide) rfl⟩

/-- C9: on a trace with no `ContractCreated` event the analysis aborts with
an error (the Python `TypeError` from `txs[:None+1]`, or an earlier
`ValueError`) and never returns a split. -/
theorem C9_no_create_fails (txs : List Event) (a : String) (mb : Option Nat)
    (h : ∀ e ∈ txs, isCreate e = false) :
    ∃ msg, detect_token_props txs a mb = .error msg := by
  simp only [detect_token_props]
  cases hl : detectLoop erc20_sigs (mb.getD 0) txs 0 ⟨[], none, []⟩ with
  | error e => exact ⟨e, rfl⟩
  | ok st =>
    have hspec := detectLoop_last_create erc20_sigs (mb.getD 0) txs 0 _ st hl
    rw [lastCreateSpec_eq_none txs h] at hspec
    have hnone : st.last_create = none := hspec
    dsimp only
    rw [hnone]
    exact ⟨_, rfl⟩

/-- C9 witness: the concrete createless trace. -/
theorem C9_no_create_fails_witness :
    (∀ e ∈ txs9, isCreate e = false) ∧
    (∃ msg, detect_token_props txs9 "0xbb" none = .error msg) :=
  ⟨by decide, C9_no_create_fails txs9 "0xbb" none (by decide)⟩

/-! Lemmas about the property synthesizer. -/

theorem AUTO_ok_spec (a : String) :
    ∀ (tks : List (String × Nat)) (ps : List Property),
      AUTO_token_max a tks = .ok ps → List.Forall₂ (autoPropSpec a) tks ps := by
  intro tks
  induction tks with
  | nil =>
    intro ps h
    simp only [AUTO_token_max, Except.ok.injEq] at h
    subst h
    exact List.Forall₂.nil
  | cons tk rest ih =>
    intro ps h
    obtain ⟨token, mbal⟩ := tk
    simp only [AUTO_token_max] at h
    cases hti : pyIntHex token with
    | none => rw [hti] at h; simp at h
    | some ti =>
      rw [hti] at h
      dsimp only at h
      cases hai : pyIntHex a with
      | none => rw [hai] at h; simp at h
      | some ai =>
        rw [hai] at h
        dsimp only at h
        cases hrec : AUTO_token_max a rest with
        | error e => rw [hrec] at h; simp at h
        | ok ps' =>
          rw [hrec] at h
          dsimp only at h
          simp only [Except.ok.injEq] at h
          subst h
          refine List.Forall₂.cons ?_ (ih ps' hrec)
          exact ⟨ti, ai, hti, hai, rfl, rfl, rfl, rfl, rfl, rfl, rfl, rfl⟩

theorem forall2_names (a : String) (tks : List (String × Nat)) (ps : List Property)
    (hf : List.Forall₂ (autoPropSpec a) tks ps) :
    ps.map Property.name = tks.map autoPropName := by
  induction hf with
  | nil => rfl
  | cons hrel htail ih =>
    obtain ⟨ti, ai, -, -, hname, -⟩ := hrel
    simp only [List.map_cons, hname, ih]

theorem autoPropName_inj_fst (x y : String × Nat)
    (hx : isCanonicalAddress x.1 = true) (hy : isCanonicalAddress y.1 = true)
    (h : autoPropName x = autoPropName y) : x.1 = y.1 := by
  obtain ⟨hx1, -⟩ := canonical_strip x.1 hx
  obtain ⟨hy1, -⟩ := canonical_strip y.1 hy
  have hd := congrArg String.data h
  simp only [autoPropName, str_data_append, List.append_assoc] at hd
  have hd2 := List.append_cancel_left hd
  simp only [List.cons_append] at hd2
  have hsplit := marker_split '_' _ _ _ _ (repr_no_underscore x.2) (repr_no_underscore y.2) hd2
  have hd3 := hsplit.2
  simp only [List.cons.injEq, true_and, List.nil_append] at hd3
  have hb := List.append_cancel_right hd3
  apply str_ext
  rw [hx1, hy1, hb]

theorem content_newline_shape (ti ai mbal : Nat) :
    ∃ rest, ("\n\t\treturn HasBalance(address(" ++ Nat.repr ti ++ ")).balanceOf(address("
        ++ Nat.repr ai ++ ")) <= " ++ Nat.repr mbal ++ " ;").data = '\n' :: rest ∧
      '\n' ∉ rest := by
  have hA : ("\n\t\treturn HasBalance(address(" : String).data
      = '\n' :: ("\t\treturn HasBalance(address(" : String).data := rfl
  refine ⟨("\t\treturn HasBalance(address(" : String).data ++ ((Nat.repr ti).data
      ++ ((")).balanceOf(address(" : String).data ++ ((Nat.repr ai).data
      ++ ((")) <= " : String).data ++ ((Nat.repr mbal).data
      ++ (" ;" : String).data))))), ?_, ?_⟩
  · simp only [str_data_append, List.append_assoc, hA, List.cons_append]
  · intro hmem
    simp only [List.mem_append] at hmem
    rcases hmem with h | h | h | h | h | h | h
    · exact absurd h (by decide)
    · exact repr_no_newline ti h
    · exact absurd h (by decide)
    · exact repr_no_newline ai h
    · exact absurd h (by decide)
    · exact repr_no_newline mbal h
    · exact absurd h (by decide)

/-- C3: `AUTO_token_max` emits exactly one record per `(token, ceiling)`
entry, in insertion order, whose content asserts that the token's balanceOf
applied to the attacker address is bounded by the ceiling, with kind =
code quality, expected outcome = success, not a unit test, a fuzz
property, caller ANY; the empty token map yields the empty sequence. -/
theorem C3_synthesis (a : String) (tks : List (String × Nat)) (ps : List Property)
    (h : AUTO_token_max a tks = .ok ps) :
    ps.length = tks.length ∧ (tks = [] → ps = []) ∧
      List.Forall₂ (autoPropSpec a) tks ps := by
  have hf := AUTO_ok_spec a tks ps h
  refine ⟨hf.length_eq.symm, ?_, hf⟩
  intro he
  subst he
  cases hf with
  | nil => rfl

/-- C3 witness: the synthesis for attacker `0xbb` and the one-entry map. -/
theorem C3_synthesis_witness :
    AUTO_token_max "0xbb" [("0xcc", 0)] = .ok propsC3 ∧
    (propsC3.length = [("0xcc", 0)].length ∧ (([("0xcc", 0)] : List (String × Nat)) = [] → propsC3 = []) ∧
      List.Forall₂ (autoPropSpec "0xbb") [("0xcc", 0)] propsC3) :=
  ⟨rfl, C3_synthesis "0xbb" [("0xcc", 0)] propsC3 rfl⟩

/-- C4: for a token map whose keys are canonical (`0x`-prefixed lowercase
hex) addresses and pairwise distinct, the names of the emitted records are
pairwise distinct, even though all ceilings coincide within one run. -/
theorem C4_names_distinct (a : String) (tks : List (String × Nat)) (ps : List Property)
    (hcanon : ∀ tk ∈ tks, isCanonicalAddress tk.1 = true)
    (hkeys : (tks.map Prod.fst).Nodup)
    (h : AUTO_token_max a tks = .ok ps) :
    (ps.map Property.name).Nodup := by
  have hf := AUTO_ok_spec a tks ps h
  rw [forall2_names a tks ps hf]
  have hinj : ∀ x ∈ tks, ∀ y ∈ tks, autoPropName x = autoPropName y → x = y := by
    intro x hx y hy hxy
    have hfst : x.1 = y.1 := autoPropName_inj_fst x y (hcanon x hx) (hcanon y hy) hxy
    exact List.inj_on_of_nodup_map hkeys hx hy hfst
  exact List.Nodup.map_on hinj (List.Nodup.of_map _ hkeys)

/-- C4 witness: two canonical token addresses with the same ceiling. -/
theorem C4_names_distinct_witness :
    (∀ tk ∈ ([("0xc1", 0), ("0xc2", 0)] : List (String × Nat)), isCanonicalAddress tk.1 = true) ∧
    (([("0xc1", 0), ("0xc2", 0)] : List (String × Nat)).map Prod.fst).Nodup ∧
    AUTO_token_max "0xbb" [("0xc1", 0), ("0xc2", 0)] = .ok propsC4 ∧
    (propsC4.map Property.name).Nodup :=
  ⟨by decide, by decide, rfl,
   C4_names_distinct "0xbb" [("0xc1", 0), ("0xc2", 0)] propsC4 (by decide) (by decide) rfl⟩

/-- C5 counterexample: the record synthesized for attacker `0xbb` and token
`0xcc` has a content that does contain a newline character, refuting the
claim that emitted contents contain no unescaped newline. -/
theorem C5_content_counterexample :
    AUTO_token_max "0xbb" [("0xcc", 0)] = .ok propsC3 ∧
    (propsC3.map fun p => p.content.data.contains '\n') = [true] :=
  ⟨rfl, rfl⟩

/-- C5 amended: every record emitted by `AUTO_token_max` has a content whose
only newline is the single formatting newline at the very start: the content
begins with a newline character and its remainder contains none. -/
theorem C5_content_single_leading_newline (a : String) (tks : List (String × Nat))
    (ps : List Property) (h : AUTO_token_max a tks = .ok ps) :
    ∀ p ∈ ps, ∃ rest, p.content.data = '\n' :: rest ∧ '\n' ∉ rest := by
  have hf := AUTO_ok_spec a tks ps h
  clear h
  induction hf with
  | nil => simp
  | cons hrel htail ih =>
    intro p hp
    rcases List.mem_cons.mp hp with hp | hp
    · subst hp
      obtain ⟨ti, ai, -, -, -, -, hcontent, -⟩ := hrel
      rw [hcontent]
      exact content_newline_shape ti ai _
    · exact ih p hp

/-- C5 amended witness: the concrete synthesized record. -/
theorem C5_content_single_leading_newline_witness :
    AUTO_token_max "0xbb" [("0xcc", 0)] = .ok propsC3 ∧
    (∀ p ∈ propsC3, ∃ rest, p.content.data = '\n' :: rest ∧ '\n' ∉ rest) :=
  ⟨rfl, C5_content_single_leading_newline "0xbb" [("0xcc", 0)] propsC3 rfl⟩

/-! Lemmas about the checksum encoder. -/

theorem hex16_split : ∀ c ∈ ("0123456789abcdef".data),
    c ∈ ("0123456789".data) ∨ c ∈ ("abcdef".data) := by decide

theorem digit_not_letter : ∀ c ∈ ("0123456789".data), c ∉ ("abcdef".data) := by decide

theorem letter_not_digit : ∀ c ∈ ("abcdef".data), c ∉ ("0123456789".data) := by decide

theorem digit_ne_x : ∀ c ∈ ("0123456789".data), ¬ c = 'x' := by decide

theorem letter_ne_x : ∀ c ∈ ("abcdef".data), ¬ c = 'x' := by decide

theorem digit_toLower : ∀ c ∈ ("0123456789".data), Char.toLower c = c := by decide

theorem letter_toLower : ∀ c ∈ ("abcdef".data), Char.toLower c = c := by decide

theorem letter_upper_toLower : ∀ c ∈ ("abcdef".data),
    Char.toLower (Char.toUpper c) = c := by decide

theorem checksumAux_ok_chars (hashed : List Char) :
    ∀ (l : List Char) (i : Nat) (cs : List Char), checksumAux hashed l i = .ok cs →
      ∀ c ∈ l, c ∈ ("0123456789".data) ∨ c ∈ ("abcdef".data) := by
  intro l
  induction l with
  | nil => intro i cs h c hc; simp at hc
  | cons c0 rest ih =>
    intro i cs h c hc
    simp only [checksumAux] at h
    by_cases hd : c0 ∈ ("0123456789".data)
    · rw [if_pos hd] at h
      cases hrec : checksumAux hashed rest (i + 1) with
      | error e => rw [hrec] at h; simp at h
      | ok cs' =>
        rcases List.mem_cons.mp hc with hc | hc
        · exact Or.inl (hc ▸ hd)
        · exact ih (i + 1) cs' hrec c hc
    · rw [if_neg hd] at h
      by_cases hl : c0 ∈ ("abcdef".data)
      · rw [if_pos hl] at h
        cases hg : hashed.get? i with
        | none => rw [hg] at h; simp at h
        | some hc0 =>
          rw [hg] at h
          dsimp only at h
          cases hv : hexDigitVal hc0 with
          | none => rw [hv] at h; simp at h
          | some v =>
            rw [hv] at h
            dsimp only at h
            cases hrec : checksumAux hashed rest (i + 1) with
            | error e => rw [hrec] at h; simp at h
            | ok cs' =>
              rcases List.mem_cons.mp hc with hc | hc
              · exact Or.inr (hc ▸ hl)
              · exact ih (i + 1) cs' hrec c hc
      · rw [if_neg hl] at h; simp at h

theorem checksumAux_ok_toLower (hashed : List Char) :
    ∀ (l : List Char) (i : Nat) (cs : List Char), checksumAux hashed l i = .ok cs →
      cs.map Char.toLower = l := by
  intro l
  induction l with
  | nil =>
    intro i cs h
    simp only [checksumAux, Except.ok.injEq] at h
    subst h
    rfl
  | cons c0 rest ih =>
    intro i cs h
    simp only [checksumAux] at h
    by_cases hd : c0 ∈ ("0123456789".data)
    · rw [if_pos hd] at h
      cases hrec : checksumAux hashed rest (i + 1) with
      | error e => rw [hrec] at h; simp at h
      | ok cs' =>
        rw [hrec] at h
        dsimp only at h
        simp only [Except.ok.injEq] at h
        subst h
        simp only [List.map_cons, ih (i + 1) cs' hrec, digit_toLower c0 hd]
    · rw [if_neg hd] at h
      by_cases hl : c0 ∈ ("abcdef".data)
      · rw [if_pos hl] at h
        cases hg : hashed.get? i with
        | none => rw [hg] at h; simp at h
        | some hc0 =>
          rw [hg] at h
          dsimp only at h
          cases hv : hexDigitVal hc0 with
          | none => rw [hv] at h; simp at h
          | some v =>
            rw [hv] at h
            dsimp only at h
            cases hrec : checksumAux hashed rest (i + 1) with
            | error e => rw [hrec] at h; simp at h
            | ok cs' =>
              rw [hrec] at h
              dsimp only at h
              simp only [Except.ok.injEq] at h
              subst h
              simp only [List.map_cons, ih (i + 1) cs' hrec]
              by_cases h7 : 7 < v
              · rw [if_pos h7, letter_upper_toLower c0 hl]
              · rw [if_neg h7, letter_toLower c0 hl]
      · rw [if_neg hl] at h; simp at h

theorem checksumAux_spec_ok (hashed : List Char) :
    ∀ (l : List Char) (i : Nat), (∀ c ∈ l, c ∈ ("0123456789abcdef".data)) →
      (∀ j, j < l.length → (nibbleAt hashed (i + j)).isSome = true) →
      checksumAux hashed l i = .ok (specChecksumMap hashed l i) := by
  intro l
  induction l with
  | nil => intro i h16 hdig; rfl
  | cons c0 rest ih =>
    intro i h16 hdig
    have hshift : ∀ j, j < rest.length → (nibbleAt hashed ((i + 1) + j)).isSome = true := by
      intro j hj
      have := hdig (j + 1) (by simpa using Nat.succ_lt_succ hj)
      rwa [show i + (j + 1) = i + 1 + j by omega] at this
    have hrec := ih (i + 1) (fun c hc => h16 c (List.mem_cons_of_mem _ hc)) hshift
    have hc0 := h16 c0 (List.mem_cons_self _ _)
    rcases hex16_split c0 hc0 with hd | hl
    · have hnl : c0 ∉ ("abcdef".data) := digit_not_letter c0 hd
      simp only [checksumAux, if_pos hd, hrec]
      simp only [specChecksumMap, specChecksumChar, if_neg hnl]
    · have hnd : c0 ∉ ("0123456789".data) := letter_not_digit c0 hl
      have h0 := hdig 0 (by simp)
      rw [Nat.add_zero] at h0
      cases hg : hashed.get? i with
      | none =>
        exfalso
        simp only [nibbleAt] at h0
        rw [hg] at h0
        simp at h0
      | some hc0 =>
        cases hv : hexDigitVal hc0 with
        | none =>
          exfalso
          simp only [nibbleAt] at h0
          rw [hg] at h0
          dsimp only at h0
          rw [hv] at h0
          simp at h0
        | some v =>
          have hnib : nibbleAt hashed i = some v := by
            simp only [nibbleAt]
            rw [hg]
            exact hv
          simp only [checksumAux, if_neg hnd, if_pos hl, hg, hv, hrec]
          simp only [specChecksumMap, specChecksumChar, if_pos hl, hnib]

/-- C6: for every address whose lowercased, prefix-stripped form is pure
lowercase hex, and every digest long enough (as the 128-hex-character
SHA3-512 hexdigest always is for a real address), the encoder returns `0x`
followed by the same characters, each digit unchanged and each letter
`a`-`f` upper-cased exactly when the digest of the lowercased, stripped
string has a nibble value greater than 7 at the same character index. -/
theorem C6_checksum_rule (hash : String → String) (addr : String)
    (hhex : ∀ c ∈ (strip0x (pyLower addr)).data, c ∈ ("0123456789abcdef".data))
    (hdig : ∀ j, j < (strip0x (pyLower addr)).data.length →
      (nibbleAt ((hash (strip0x (pyLower addr))).data) j).isSome = true) :
    checksum_encode hash addr =
      .ok ("0x" ++ String.mk (specChecksumMap ((hash (strip0x (pyLower addr))).data)
        (strip0x (pyLower addr)).data 0)) := by
  have hst := strip_eq_replace (pyLower addr) hhex
  simp only [checksum_encode, hst]
  have hdig' : ∀ j, j < (strip0x (pyLower addr)).data.length →
      (nibbleAt ((hash (strip0x (pyLower addr))).data) (0 + j)).isSome = true := by
    intro j hj
    rw [Nat.zero_add]
    exact hdig j hj
  rw [checksumAux_spec_ok _ _ 0 hhex hdig']

/-- C6 witness: address `0xaf` with the two-nibble digest `80`. -/
theorem C6_checksum_rule_witness :
    (∀ c ∈ (strip0x (pyLower "0xaf")).data, c ∈ ("0123456789abcdef".data)) ∧
    (∀ j, j < (strip0x (pyLower "0xaf")).data.length →
      (nibbleAt ((hashW (strip0x (pyLower "0xaf"))).data) j).isSome = true) ∧
    checksum_encode hashW "0xaf" =
      .ok ("0x" ++ String.mk (specChecksumMap ((hashW (strip0x (pyLower "0xaf"))).data)
        (strip0x (pyLower "0xaf")).data 0)) :=
  ⟨by decide, by decide, C6_checksum_rule hashW "0xaf" (by decide) (by decide)⟩

/-- C7: the checksum encoder is idempotent — re-encoding a successfully
produced output returns it unchanged. -/
theorem C7_idempotent (hash : String → String) (addr out : String)
    (h : checksum_encode hash addr = .ok out) :
    checksum_encode hash out = .ok out := by
  simp only [checksum_encode] at h
  cases hcs : checksumAux ((hash (replaceAll0x (pyLower addr))).data)
      ((replaceAll0x (pyLower addr)).data) 0 with
  | error e => rw [hcs] at h; simp at h
  | ok cs =>
    rw [hcs] at h
    dsimp only at h
    simp only [Except.ok.injEq] at h
    have hlow : cs.map Char.toLower = (replaceAll0x (pyLower addr)).data :=
      checksumAux_ok_toLower _ _ 0 cs hcs
    have hchars := checksumAux_ok_chars _ _ 0 cs hcs
    have hnx : ∀ c ∈ (replaceAll0x (pyLower addr)).data, ¬ c = 'x' := by
      intro c hc
      rcases hchars c hc with hcc | hcc
      · exact digit_ne_x c hcc
      · exact letter_ne_x c hcc
    have hout : out.data = '0' :: 'x' :: cs := by rw [← h]; rfl
    have hlow_out : pyLower out = ⟨'0' :: 'x' :: (replaceAll0x (pyLower addr)).data⟩ := by
      apply str_ext
      have hdef : (pyLower out).data = List.map Char.toLower out.data := rfl
      rw [hdef, hout, List.map_cons, List.map_cons, hlow]
      rfl
    have hre : replaceAll0x (pyLower out) = replaceAll0x (pyLower addr) := by
      rw [hlow_out]
      apply str_ext
      show replace0xAux ('0' :: 'x' :: (replaceAll0x (pyLower addr)).data)
          = (replaceAll0x (pyLower addr)).data
      rw [replace0xAux_cons0x]
      exact replace0xAux_no_x _ hnx
    simp only [checksum_encode, hre]
    rw [hcs]
    dsimp only
    rw [h]

/-- C7 witness: re-encoding the encoded form of `0xaf`. -/
theorem C7_idempotent_witness :
    checksum_encode hashW "0xaf" = .ok "0xAf" ∧
    checksum_encode hashW "0xAf" = .ok "0xAf" :=
  ⟨rfl, C7_idempotent hashW "0xaf" "0xAf" rfl⟩

/-- C10: the encoder only changes letter case — lowercasing its output and
stripping the `0x` prefix gives back the lowercased, prefix-stripped input,
and the output is exactly two characters longer than the stripped input. -/
theorem C10_case_only (hash : String → String) (addr out : String)
    (hhex : ∀ c ∈ (strip0x (pyLower addr)).data, c ∈ ("0123456789abcdef".data))
    (h : checksum_encode hash addr = .ok out) :
    strip0x (pyLower out) = strip0x (pyLower addr) ∧
      out.length = (strip0x (pyLower addr)).length + 2 := by
  have hst := strip_eq_replace (pyLower addr) hhex
  simp only [checksum_encode] at h
  cases hcs : checksumAux ((hash (replaceAll0x (pyLower addr))).data)
      ((replaceAll0x (pyLower addr)).data) 0 with
  | error e => rw [hcs] at h; simp at h
  | ok cs =>
    rw [hcs] at h
    dsimp only at h
    simp only [Except.ok.injEq] at h
    have hlow : cs.map Char.toLower = (replaceAll0x (pyLower addr)).data :=
      checksumAux_ok_toLower _ _ 0 cs hcs
    have hout : out.data = '0' :: 'x' :: cs := by rw [← h]; rfl
    have hlow_out : pyLower out = ⟨'0' :: 'x' :: (replaceAll0x (pyLower addr)).data⟩ := by
      apply str_ext
      have hdef : (pyLower out).data = List.map Char.toLower out.data := rfl
      rw [hdef, hout, List.map_cons, List.map_cons, hlow]
      rfl
    constructor
    · rw [hlow_out]
      have hred : strip0x ⟨'0' :: 'x' :: (replaceAll0x (pyLower addr)).data⟩
          = ⟨(replaceAll0x (pyLower addr)).data⟩ := by
        simp [strip0x]
      rw [hred, str_eta, hst]
    · have hlen : cs.length = (replaceAll0x (pyLower addr)).data.length := by
        have := congrArg List.length hlow
        simpa using this
      have houtlen : out.length = cs.length + 2 := by
        show out.data.length = cs.length + 2
        rw [hout]
        simp [List.length_cons]
      rw [houtlen, hlen, ← hst]
      rfl

/-- C10 witness: the encoded form of `0xaf`. -/
theorem C10_case_only_witness :
    (∀ c ∈ (strip0x (pyLower "0xaf")).data, c ∈ ("0123456789abcdef".data)) ∧
    checksum_encode hashW "0xaf" = .ok "0xAf" ∧
    (strip0x (pyLower "0xAf") = strip0x (pyLower "0xaf") ∧
      ("0xAf" : String).length = (strip0x (pyLower "0xaf")).length + 2) :=
  ⟨by decide, rfl, C10_case_only hashW "0xaf" "0xAf" (by decide) rfl⟩

/-- C8: evaluation of the analyzer at too-short call-data blobs.  The data
blob `0x` (shorter than a selector) makes `int("0x", 16)` raise, so the
analysis aborts instead of treating the call as non-matching; and the
9-character blob `0x95ea7b3`, which cannot contain a full 4-byte selector,
is nevertheless treated as matching because its integer value equals the
`approve(address,uint256)` selector value `0x095ea7b3`, so its `to` address
is added to the tokens map. -/
theorem C8_short_data_behavior :
    detect_token_props txs8a "0xbb" none =
      .error "ValueError: invalid literal for int() with base 16" ∧
    detect_token_props txs8b "0xbb" none =
      .ok (["0xaa", "0xbb"], [("0xcc", 0)], [Event.contractCreated "0xaa"],
           [Event.functionCall "0xbb" "0xcc" "0x95ea7b3" "0x0" "0x1" "0x1"]) :=
  ⟨rfl, rfl⟩

end SlitherAuto
